import Mathlib

/-!
# i3x3: workspace redistribution

A shallow embedding of `internal/i3/i3.go` (the pure helpers of the query layer) and of
`internal/workspace/distributor_thread.go` (one redistribution pass and the supervising loop),
followed by the properties proved about them.

Modelling conventions.

* `float64`.  Every `float64` the program computes is either the exact image of an integer
  (workspace numbers, slice lengths; `math.Mod` and `math.Max` of such values are again exact
  integers) or the NaN that `math.Mod` yields for a zero divisor.  `Float64` has exactly these two
  shapes.  Integers are taken as exactly representable, which holds for every workspace number the
  window manager can report (32-bit) and every slice length.
* Window manager.  `FindOutputs`, `FindWorkspaces` and the two commands run `i3-msg`; a pass is
  modelled as a function of what these calls answer (`WindowManager`), and it reports the ordered
  list of command calls it attempts together with how it ends (`PassResult`).
* `sort.Slice` belongs to Go's library, not to the repository.  It is a parameter of the pass;
  `SortSliceContract` states what its documentation promises.
* The declarations of `Output` and `Workspace` are not part of the two source files; only the
  fields the code reads are modelled.
-/

namespace I3x3

/-! ## Data model -/

/-- Modelled from the spec: the declaration of the type `Output` is not in the two source files.
The data model gives it a name, an `active` flag and a `primary` flag, which are the fields the
code reads (`Name`, `Active`, `Primary`). -/
structure Output where
  Name : String
  Active : Bool
  Primary : Bool
  deriving DecidableEq, Repr

/-- Modelled from the spec: the declaration of the type `Workspace` is not in the two source
files.  The data model gives it a number `num` (a positive integer), the name of the output it
is on and a `focused` flag, which are the fields the code reads (`Num`, `Output`, `Focused`).
`Num` is an integer here, as in Go; that it is positive is a hypothesis of the theorems that
need it. -/
structure Workspace where
  Num : Int
  Output : String
  Focused : Bool
  deriving DecidableEq, Repr

/-- The `float64` values reachable in this program: an exact integer or NaN. -/
inductive Float64 where
  | ofInt (v : Int)
  | NaN
  deriving DecidableEq, Repr

namespace Float64

/-- Go's `==` on `float64`: NaN is equal to nothing. -/
def eq : Float64 → Float64 → Bool
  | ofInt a, ofInt b => decide (a = b)
  | _, _ => false

/-- Go's conversion `int(f)`.  For NaN the result is implementation-dependent; the value given
is the one amd64 produces.  It is only reached when the indexed slice is empty. -/
def toInt : Float64 → Int
  | ofInt v => v
  | NaN => -9223372036854775808

end Float64

/-- Go's `math.Mod(x, y)`: the remainder of the truncated division, with the sign of `x`;
NaN when `y` is zero or an argument is NaN. -/
def mathMod : Float64 → Float64 → Float64
  | .ofInt x, .ofInt y => if y = 0 then .NaN else .ofInt (Int.tmod x y)
  | _, _ => .NaN

/-- Go's `math.Max(x, y)`: NaN when an argument is NaN. -/
def mathMax : Float64 → Float64 → Float64
  | .ofInt x, .ofInt y => .ofInt (max x y)
  | _, _ => .NaN

/-! ## internal/i3/i3.go -/

/-- The function `ActiveOutputs`: the active outputs, in the order of the given slice. -/
def ActiveOutputs : List Output → List Output
  | [] => []
  | output :: rest =>
    if output.Active then output :: ActiveOutputs rest else ActiveOutputs rest

/-- The function `ActiveOutputsNum`: `float64(len(ActiveOutputs(outputs)))`. -/
def ActiveOutputsNum (outputs : List Output) : Float64 :=
  .ofInt (ActiveOutputs outputs).length

/-- The function `CurrentOutputNum`: `math.Mod(workspaceNum, outputsNum)`, or `outputsNum`
when that compares equal to 0. -/
def CurrentOutputNum (workspaceNum outputsNum : Float64) : Float64 :=
  let mod := mathMod workspaceNum outputsNum
  if Float64.eq mod (.ofInt 0) then outputsNum else mod

/-- The function `CurrentWorkspaceNum`: the number of the first focused workspace in the
slice, `1.0` when there is none. -/
def CurrentWorkspaceNum : List Workspace → Float64
  | [] => .ofInt 1
  | workspace :: rest =>
    if workspace.Focused then .ofInt workspace.Num else CurrentWorkspaceNum rest

/-- The loop of `MaxWorkspaceNum`, from the running maximum `max`. -/
def MaxWorkspaceNum.loop (max : Float64) : List Workspace → Float64
  | [] => max
  | workspace :: rest => MaxWorkspaceNum.loop (mathMax max (.ofInt workspace.Num)) rest

/-- The function `MaxWorkspaceNum`: it starts from `0.0` and takes `math.Max` with every
workspace number. -/
def MaxWorkspaceNum (workspaces : List Workspace) : Float64 :=
  MaxWorkspaceNum.loop (.ofInt 0) workspaces

/-- The assignment formula in the words of the specification:
`((workspaceNum - 1) mod activeOutputCount) + 1`. -/
def expectedOutputIndex (workspaceNum activeOutputCount : Int) : Int :=
  ((workspaceNum - 1) % activeOutputCount) + 1

/-- Go's slice indexing `s[i]` with an `int` index: `none` stands for the run-time panic
"index out of range". -/
def sliceIndex {α : Type} (s : List α) (i : Int) : Option α :=
  if 0 ≤ i then s.get? i.toNat else none

/-! ## sort.Slice -/

/-- Go's `sort.IsSorted` for a comparator on elements: no element is less than the one before
it. -/
def IsSorted {α : Type} (less : α → α → Bool) : List α → Bool
  | [] => true
  | [_] => true
  | a :: b :: rest => !less b a && IsSorted less (b :: rest)

/-- The type of `sort.Slice` on a slice of outputs.  The comparator of the library takes two
indices and the closure passed by `redistributeWorkspaces` reads the slice being sorted at the
first of them, so it is given here as a function of the two elements compared. -/
abbrev SortSlice := (Output → Output → Bool) → List Output → List Output

/-- What the documentation of package `sort` promises of `sort.Slice`: the slice is rearranged
in place (a permutation), and when `less` is a transitive ordering ("if both Less(i, j) and
Less(j, k) are true, then Less(i, k) must be true as well; if both are false, Less(i, k) must be
false as well") under which the slice can be put in sorted order, it ends in sorted order.
Nothing is promised about elements that compare equal ("the sort is not guaranteed to be
stable"). -/
structure SortSliceContract (sortSlice : SortSlice) : Prop where
  perm : ∀ less s, (sortSlice less s).Perm s
  sorted : ∀ less s,
    (∀ x y z, less x y = true → less y z = true → less x z = true) →
    (∀ x y z, less x y = false → less y z = false → less x z = false) →
    (∃ t, t.Perm s ∧ IsSorted less t = true) →
    IsSorted less (sortSlice less s) = true

/-- One round of the inner loop of `insertionSort_func`: `x` moves left past every element it is
less than.  `before` lists the elements in front of `x`, nearest first. -/
def insertionStep {α : Type} (less : α → α → Bool) (x : α) : List α → List α
  | [] => [x]
  | y :: before => if less x y then y :: insertionStep less x before else x :: y :: before

/-- Go's `insertionSort_func` on a whole slice: what `sort.Slice` runs on a slice of at most 12
elements since release 1.19. -/
def insertionSort_func (less : Output → Output → Bool) (data : List Output) : List Output :=
  (data.foldl (fun before x => insertionStep less x before) []).reverse

/-- One iteration `if data.Less(i, i-6) { data.Swap(i, i-6) }` of the gap-6 pass. -/
def shellStep {α : Type} (less : α → α → Bool) (data : List α) (i : Nat) : List α :=
  match data.get? i, data.get? (i - 6) with
  | some x, some y => if less x y then (data.set i y).set (i - 6) x else data
  | _, _ => data

/-- The gap-6 pass `for i := a + 6; i < b; i++` of `quickSort_func`. -/
def shellPass {α : Type} (less : α → α → Bool) (data : List α) : List α :=
  (List.range' 6 (data.length - 6)).foldl (shellStep less) data

/-- The branch of Go's `quickSort_func` for at most 12 elements, which is what `sort.Slice` runs
on such a slice in releases 1.8 to 1.18: the gap-6 pass followed by `insertionSort_func`.  On a
longer slice the library partitions first; the two passes alone still sort it, so as a function
of slices of any length this is a sorter within the contract. -/
def quickSort_func (less : Output → Output → Bool) (data : List Output) : List Output :=
  insertionSort_func less (shellPass less data)

/-! ## internal/workspace/distributor_thread.go: one pass -/

/-- A call of a command function of package `i3`. -/
inductive Call where
  | MoveWorkspaceToOutput (workspaceNum : Float64) (outputName : String)
  | SwitchToWorkspace (workspace : Float64)
  deriving DecidableEq, Repr

/-- What the window manager answers during one pass: the two queries, and for the command call
made after `k` earlier ones the error it returns (`none` for `nil`). -/
structure WindowManager where
  FindOutputs : Except String (List Output)
  FindWorkspaces : Except String (List Workspace)
  run : Nat → Call → Option String

/-- How a Go function call ends: it returns an `error` (`none` for `nil`), or it panics. -/
inductive Outcome where
  | returned (err : Option String)
  | panicked
  deriving DecidableEq, Repr

/-- The command calls a pass attempted, in order, and how the pass ended. -/
structure PassResult where
  calls : List Call
  outcome : Outcome
  deriving DecidableEq, Repr

/-- The `for _, workspace := range workspaces` loop of `redistributeWorkspaces`, after `calls`
have been made.  The result is the calls made when the loop is left and, when the loop left the
function (a `return err` or a panic), how. -/
def redistributeWorkspaces.loop (run : Nat → Call → Option String)
    (activeOutputs : List Output) (activeOutputsNum : Nat) :
    List Workspace → List Call → List Call × Option Outcome
  | [], calls => (calls, none)
  | workspace :: rest, calls =>
    let workspaces := Float64.ofInt workspace.Num
    let outputs := Float64.ofInt activeOutputsNum
    let expected := CurrentOutputNum workspaces outputs
    match sliceIndex activeOutputs (expected.toInt - 1) with
    | none => (calls, some .panicked)
    | some expectedOutput =>
      if expectedOutput.Name ≠ workspace.Output then
        let call := Call.MoveWorkspaceToOutput workspaces expectedOutput.Name
        match run calls.length call with
        | some err => (calls ++ [call], some (.returned (some err)))
        | none => redistributeWorkspaces.loop run activeOutputs activeOutputsNum rest
            (calls ++ [call])
      else
        redistributeWorkspaces.loop run activeOutputs activeOutputsNum rest calls

/-- The slice `activeOutputs` of a pass after the `sort.Slice` call. -/
def sortedActiveOutputs (sortSlice : SortSlice) (outputs : List Output) : List Output :=
  sortSlice (fun a _ => a.Primary) (ActiveOutputs outputs)

/-- The function `redistributeWorkspaces`: one redistribution pass.  Both queries are made
first, each error returned wrapped; then the active outputs are filtered, counted and sorted,
the focused workspace is recorded, the workspaces are looped over, and focus is switched
back. -/
def redistributeWorkspaces (sortSlice : SortSlice) (wm : WindowManager) : PassResult :=
  match wm.FindOutputs with
  | .error err => ⟨[], .returned (some ("couldn't find outputs: " ++ err))⟩
  | .ok outputs =>
    match wm.FindWorkspaces with
    | .error err => ⟨[], .returned (some ("couldn't find workspaces: " ++ err))⟩
    | .ok workspaces =>
      let activeOutputsNum := (ActiveOutputs outputs).length
      let currentWorkspace := CurrentWorkspaceNum workspaces
      let activeOutputs := sortedActiveOutputs sortSlice outputs
      match redistributeWorkspaces.loop wm.run activeOutputs activeOutputsNum workspaces [] with
      | (calls, some outcome) => ⟨calls, outcome⟩
      | (calls, none) =>
        ⟨calls ++ [.SwitchToWorkspace currentWorkspace],
          .returned (wm.run calls.length (.SwitchToWorkspace currentWorkspace))⟩

/-! ## internal/workspace/distributor_thread.go: the loop -/

/-- The case of the `select` in `start` that fires at a wake: the ticker, the message channel
(each followed by a pass, against the window manager as it answers then), or cancellation. -/
inductive Wake where
  | tick (wm : WindowManager)
  | msg (wm : WindowManager)
  | done

/-- The closure `doDistribute` of `start`: the error of the pass is returned only when
`attempt >= threshold`; otherwise it is logged and `nil` is returned. -/
def doDistribute (sortSlice : SortSlice) (attempt threshold : Int) (wm : WindowManager) :
    Outcome :=
  match (redistributeWorkspaces sortSlice wm).outcome with
  | .panicked => .panicked
  | .returned err => if err ≠ none ∧ attempt ≥ threshold then .returned err else .returned none

/-- The `for { select { ... } }` loop of `start`, run over the wakes that occur.  `none` means
the loop has not returned after the last of them (it is waiting in `select`). -/
def start.loop (sortSlice : SortSlice) (attempt threshold : Int) : List Wake → Option Outcome
  | [] => none
  | .done :: _ => some (.returned (some "context canceled"))
  | .tick wm :: rest =>
    match doDistribute sortSlice attempt threshold wm with
    | .returned none => start.loop sortSlice attempt threshold rest
    | stop => some stop
  | .msg wm :: rest =>
    match doDistribute sortSlice attempt threshold wm with
    | .returned none => start.loop sortSlice attempt threshold rest
    | stop => some stop

/-- The method `start(attempt)`: the threshold is the constant 5, and `attempt` is whatever the
caller passed. -/
def start (sortSlice : SortSlice) (attempt : Int) (wakes : List Wake) : Option Outcome :=
  start.loop sortSlice attempt 5 wakes

/-- The method `Start`: `return t.start(0)`. -/
def Start (sortSlice : SortSlice) (wakes : List Wake) : Option Outcome :=
  start sortSlice 0 wakes

/-! ## Reference definitions

What the specification says a pass does, for comparison with `redistributeWorkspaces`. -/

/-- The output a pass expects workspace `w` on, in the words of the specification: the element
`activeOutputs[CurrentOutputNum(w.num, n) - 1]` of the sorted active outputs (`none` when there
is no such element). -/
def expectedOutput (activeOutputs : List Output) (n : Nat) (w : Workspace) : Option Output :=
  sliceIndex activeOutputs ((CurrentOutputNum (.ofInt w.Num) (.ofInt n)).toInt - 1)

/-- A window manager whose two queries succeed and which answers the commands by `run`. -/
def answering (outputs : List Output) (workspaces : List Workspace)
    (run : Nat → Call → Option String) : WindowManager :=
  ⟨.ok outputs, .ok workspaces, run⟩

/-- A window manager that fails on every call with the error `err`. -/
def failing (err : String) : WindowManager :=
  ⟨.error err, .error err, fun _ _ => some err⟩

/-- Command answers in which the first call of a pass fails and every later one succeeds. -/
def failFirst : Nat → Call → Option String :=
  fun k _ => if k = 0 then some "exit status 1" else none

/-- The outputs of the example scenario: `A` (primary) and `B`, both active. -/
def exOutputs : List Output := [⟨"A", true, true⟩, ⟨"B", true, false⟩]

/-- The workspaces of the example scenario: 1 on `B`, 2 on `A` and focused, 3 on `A`. -/
def exWorkspaces : List Workspace := [⟨1, "B", false⟩, ⟨2, "A", true⟩, ⟨3, "A", false⟩]

/-- The workspaces of the example scenario once each is on its expected output. -/
def exPlaced : List Workspace := [⟨1, "A", false⟩, ⟨2, "B", true⟩, ⟨3, "A", false⟩]

/-- Eight active outputs, the primary one last in the query. -/
def exEight : List Output :=
  [⟨"HDMI-0", true, false⟩, ⟨"HDMI-1", true, false⟩, ⟨"HDMI-2", true, false⟩,
   ⟨"HDMI-3", true, false⟩, ⟨"HDMI-4", true, false⟩, ⟨"HDMI-5", true, false⟩,
   ⟨"HDMI-6", true, false⟩, ⟨"eDP-1", true, true⟩]

/-! ## The assignment formula -/

theorem mathMod_ofInt_pos (w n : Int) (hw : 0 ≤ w) (hn : 1 ≤ n) :
    mathMod (.ofInt w) (.ofInt n) = .ofInt (w % n) := by
  have hn0 : n ≠ 0 := by omega
  simp [mathMod, hn0, Int.tmod_eq_emod hw (by omega : (0 : Int) ≤ n)]

theorem CurrentOutputNum_ofInt_pos (w n : Int) (hw : 0 ≤ w) (hn : 1 ≤ n) :
    CurrentOutputNum (.ofInt w) (.ofInt n) = .ofInt (if w % n = 0 then n else w % n) := by
  unfold CurrentOutputNum
  rw [mathMod_ofInt_pos w n hw hn]
  by_cases h : w % n = 0 <;> simp [Float64.eq, h]

theorem sub_one_emod_add_one (w n : Int) (hn : 1 ≤ n) :
    (w - 1) % n + 1 = if w % n = 0 then n else w % n := by
  have hn0 : n ≠ 0 := by omega
  have hdecomp : w - 1 = (w % n - 1) + n * (w / n) := by
    have := Int.emod_add_ediv w n
    omega
  have hlo : 0 ≤ w % n := Int.emod_nonneg w hn0
  have hhi : w % n < n := Int.emod_lt_of_pos w (by omega)
  rw [hdecomp, Int.add_mul_emod_self_left]
  by_cases h : w % n = 0
  · rw [if_pos h, h]
    have : ((0 : Int) - 1) % n = n - 1 := by
      have h1 : ((0 : Int) - 1) % n = ((0 - 1) + n) % n := by
        rw [Int.add_emod_self]
      rw [h1, Int.emod_eq_of_lt (a := 0 - 1 + n) (b := n) (by omega) (by omega)]
      omega
    rw [this]; omega
  · rw [if_neg h, Int.emod_eq_of_lt (a := w % n - 1) (b := n) (by omega) (by omega)]
    omega

/-- Claim C3.  For every integer workspace number `w ≥ 1` and every count `n ≥ 1` of active
outputs, `CurrentOutputNum(w, n)`, computed as `w mod n`, or `n` when that is 0, is the value
`((w - 1) mod n) + 1` of the assignment formula of the specification. -/
theorem CurrentOutputNum_eq_expectedOutputIndex (w n : Int) (hw : 1 ≤ w) (hn : 1 ≤ n) :
    CurrentOutputNum (.ofInt w) (.ofInt n) = .ofInt (expectedOutputIndex w n) := by
  rw [CurrentOutputNum_ofInt_pos w n (by omega) hn, expectedOutputIndex,
    sub_one_emod_add_one w n hn]

/-- The formula at workspace 3 with 2 active outputs. -/
theorem CurrentOutputNum_eq_expectedOutputIndex_witness :
    CurrentOutputNum (.ofInt 3) (.ofInt 2) = .ofInt (expectedOutputIndex 3 2) :=
  CurrentOutputNum_eq_expectedOutputIndex 3 2 (by decide) (by decide)

theorem sliceIndex_isSome {α : Type} (s : List α) (i : Int) (h0 : 0 ≤ i) (h1 : i < s.length) :
    (sliceIndex s i).isSome = true := by
  unfold sliceIndex
  rw [if_pos h0]
  have : i.toNat < s.length := by omega
  simp [List.get?_eq_getElem?, this]

/-- Claim C4.  For positive `w` and `n ≥ 1`, `CurrentOutputNum(w, n)` is an integer `c` with
`1 ≤ c ≤ n`, it is unchanged when `w` grows by `n`, and the lookup `activeOutputs[int(c) - 1]`
of a pass over `n` active outputs is in bounds. -/
theorem CurrentOutputNum_range_periodic (w n : Int) (hw : 1 ≤ w) (hn : 1 ≤ n) :
    ∃ c : Int, CurrentOutputNum (.ofInt w) (.ofInt n) = .ofInt c ∧ 1 ≤ c ∧ c ≤ n ∧
      CurrentOutputNum (.ofInt (w + n)) (.ofInt n) = CurrentOutputNum (.ofInt w) (.ofInt n) ∧
      ∀ activeOutputs : List Output, (activeOutputs.length : Int) = n →
        (sliceIndex activeOutputs
          ((CurrentOutputNum (.ofInt w) (.ofInt n)).toInt - 1)).isSome = true := by
  have hn0 : n ≠ 0 := by omega
  have hlo : 0 ≤ w % n := Int.emod_nonneg w hn0
  have hhi : w % n < n := Int.emod_lt_of_pos w (by omega)
  have hc : 1 ≤ (if w % n = 0 then n else w % n) ∧ (if w % n = 0 then n else w % n) ≤ n := by
    by_cases h : w % n = 0
    · rw [if_pos h]; omega
    · rw [if_neg h]; omega
  refine ⟨if w % n = 0 then n else w % n, CurrentOutputNum_ofInt_pos w n (by omega) hn,
    hc.1, hc.2, ?_, ?_⟩
  · rw [CurrentOutputNum_ofInt_pos (w + n) n (by omega) hn,
      CurrentOutputNum_ofInt_pos w n (by omega) hn, Int.add_emod_self]
  · intro activeOutputs hlen
    rw [CurrentOutputNum_ofInt_pos w n (by omega) hn]
    apply sliceIndex_isSome
    · simp only [Float64.toInt]; omega
    · simp only [Float64.toInt]; omega

/-- Workspace 5 with 3 active outputs. -/
theorem CurrentOutputNum_range_periodic_witness :
    ∃ c : Int, CurrentOutputNum (.ofInt 5) (.ofInt 3) = .ofInt c ∧ 1 ≤ c ∧ c ≤ 3 ∧
      CurrentOutputNum (.ofInt (5 + 3)) (.ofInt 3) = CurrentOutputNum (.ofInt 5) (.ofInt 3) ∧
      ∀ activeOutputs : List Output, (activeOutputs.length : Int) = 3 →
        (sliceIndex activeOutputs
          ((CurrentOutputNum (.ofInt 5) (.ofInt 3)).toInt - 1)).isSome = true :=
  CurrentOutputNum_range_periodic 5 3 (by decide) (by decide)

/-! ## The helpers on workspaces -/

theorem MaxWorkspaceNum_loop_ofInt (m : Int) (workspaces : List Workspace) :
    MaxWorkspaceNum.loop (.ofInt m) workspaces
      = .ofInt (workspaces.foldl (fun a w => max a w.Num) m) := by
  induction workspaces generalizing m with
  | nil => rfl
  | cons w rest ih => simp [MaxWorkspaceNum.loop, mathMax, ih]

theorem foldl_max_ge (workspaces : List Workspace) (m : Int) :
    m ≤ workspaces.foldl (fun a w => max a w.Num) m ∧
      ∀ v ∈ workspaces, v.Num ≤ workspaces.foldl (fun a w => max a w.Num) m := by
  induction workspaces generalizing m with
  | nil => simp
  | cons w rest ih =>
    have h := ih (max m w.Num)
    simp only [List.foldl_cons, List.mem_cons, forall_eq_or_imp]
    refine ⟨le_trans (le_max_left _ _) h.1, le_trans (le_max_right _ _) h.1, h.2⟩

theorem foldl_max_mem (workspaces : List Workspace) (m : Int) :
    workspaces.foldl (fun a w => max a w.Num) m = m ∨
      ∃ w ∈ workspaces, workspaces.foldl (fun a w => max a w.Num) m = w.Num := by
  induction workspaces generalizing m with
  | nil => simp
  | cons w rest ih =>
    simp only [List.foldl_cons, List.mem_cons, exists_eq_or_imp]
    rcases ih (max m w.Num) with h | ⟨v, hv, h⟩
    · rcases max_cases m w.Num with ⟨hm, _⟩ | ⟨hm, _⟩
      · left; rw [h, hm]
      · right; left; rw [h, hm]
    · right; right; exact ⟨v, hv, h⟩

/-- Claim C9, as amended.  `MaxWorkspaceNum` starts from 0: when some workspace has a number
that is not negative (so for every non-empty sequence of positive numbers) it returns the
number of one of the workspaces that is at least the number of every workspace; when every
number is negative, and for the empty sequence, it returns 0. -/
theorem MaxWorkspaceNum_max_or_zero (workspaces : List Workspace) :
    ((∃ w ∈ workspaces, 0 ≤ w.Num) →
      ∃ w ∈ workspaces, MaxWorkspaceNum workspaces = .ofInt w.Num ∧
        ∀ v ∈ workspaces, v.Num ≤ w.Num) ∧
    ((∀ w ∈ workspaces, w.Num < 0) → MaxWorkspaceNum workspaces = .ofInt 0) := by
  unfold MaxWorkspaceNum
  rw [MaxWorkspaceNum_loop_ofInt]
  have hge := foldl_max_ge workspaces 0
  constructor
  · rintro ⟨w0, hw0, h0⟩
    rcases foldl_max_mem workspaces 0 with hzero | ⟨w, hw, h⟩
    · have h1 := hge.2 w0 hw0
      refine ⟨w0, hw0, ?_, ?_⟩
      · rw [hzero]; congr 1; omega
      · intro v hv
        have := hge.2 v hv
        omega
    · refine ⟨w, hw, by rw [h], ?_⟩
      intro v hv
      have := hge.2 v hv
      omega
  · intro hneg
    rcases foldl_max_mem workspaces 0 with hzero | ⟨w, hw, h⟩
    · rw [hzero]
    · have := hneg w hw
      have := hge.1
      omega

/-- The three workspaces of the example scenario, the empty sequence, and a single workspace
numbered -1. -/
theorem MaxWorkspaceNum_max_or_zero_witness :
    (∃ w ∈ exWorkspaces, MaxWorkspaceNum exWorkspaces = .ofInt w.Num ∧
      ∀ v ∈ exWorkspaces, v.Num ≤ w.Num) ∧
    MaxWorkspaceNum [] = .ofInt 0 ∧
    MaxWorkspaceNum [⟨-1, "A", true⟩] = .ofInt 0 :=
  ⟨(MaxWorkspaceNum_max_or_zero exWorkspaces).1 ⟨⟨1, "B", false⟩, by decide, by decide⟩,
    (MaxWorkspaceNum_max_or_zero []).2 (by simp),
    (MaxWorkspaceNum_max_or_zero [⟨-1, "A", true⟩]).2 (by decide)⟩

/-- Claim C9 fails as stated: for the single workspace numbered -1, which is how the window
manager numbers a workspace whose name has no number, `MaxWorkspaceNum` returns 0, the number
of no workspace in the sequence. -/
theorem MaxWorkspaceNum_not_a_workspace_number :
    MaxWorkspaceNum [⟨-1, "A", true⟩] = .ofInt 0 ∧
    ¬ ∃ w ∈ [(⟨-1, "A", true⟩ : Workspace)],
      MaxWorkspaceNum [⟨-1, "A", true⟩] = .ofInt w.Num := by
  decide

/-- Claim C10.  `CurrentWorkspaceNum` returns the number of the first workspace in the sequence
with `focused = true`, and 1 when no workspace is focused (so also for the empty sequence). -/
theorem CurrentWorkspaceNum_spec (workspaces : List Workspace) :
    (∀ (before : List Workspace) (w : Workspace) (after : List Workspace),
      workspaces = before ++ w :: after → (∀ v ∈ before, v.Focused = false) →
      w.Focused = true → CurrentWorkspaceNum workspaces = .ofInt w.Num) ∧
    ((∀ w ∈ workspaces, w.Focused = false) → CurrentWorkspaceNum workspaces = .ofInt 1) := by
  constructor
  · intro before w after hsplit hbefore hw
    subst hsplit
    induction before with
    | nil => simp [CurrentWorkspaceNum, hw]
    | cons v rest ih =>
      have hv : v.Focused = false := hbefore v (List.mem_cons_self _ _)
      simp only [List.cons_append, CurrentWorkspaceNum, hv]
      exact ih (fun u hu => hbefore u (List.mem_cons_of_mem _ hu))
  · intro hnone
    induction workspaces with
    | nil => rfl
    | cons v rest ih =>
      have hv : v.Focused = false := hnone v (List.mem_cons_self _ _)
      simp only [CurrentWorkspaceNum, hv]
      exact ih (fun u hu => hnone u (List.mem_cons_of_mem _ hu))

/-- The example scenario, where workspace 2 is focused, and the empty sequence. -/
theorem CurrentWorkspaceNum_spec_witness :
    CurrentWorkspaceNum exWorkspaces = .ofInt 2 ∧ CurrentWorkspaceNum [] = .ofInt 1 :=
  ⟨(CurrentWorkspaceNum_spec exWorkspaces).1 [⟨1, "B", false⟩] ⟨2, "A", true⟩ [⟨3, "A", false⟩]
      rfl (by decide) rfl,
    (CurrentWorkspaceNum_spec []).2 (by simp)⟩

/-! ## Sorting -/

theorem isSorted_iff_chain {α : Type} (less : α → α → Bool) (l : List α) :
    IsSorted less l = true ↔ List.Chain' (fun a b => less b a = false) l := by
  induction l with
  | nil => simp [IsSorted]
  | cons a rest ih =>
    cases rest with
    | nil => simp [IsSorted]
    | cons b rest => simp [IsSorted, List.chain'_cons, ih]

theorem isSorted_iff_pairwise {α : Type} (less : α → α → Bool)
    (hnt : ∀ x y z, less x y = false → less y z = false → less x z = false) (l : List α) :
    IsSorted less l = true ↔ List.Pairwise (fun a b => less b a = false) l := by
  rw [isSorted_iff_chain]
  constructor
  · intro h
    induction l with
    | nil => exact List.Pairwise.nil
    | cons a rest ih =>
      have hrest := ih (List.Chain'.tail h)
      refine List.Pairwise.cons ?_ hrest
      cases rest with
      | nil => simp
      | cons b rest =>
        have hab : less b a = false := (List.chain'_cons.1 h).1
        intro c hc
        rcases List.mem_cons.1 hc with rfl | hc
        · exact hab
        · exact hnt c b a ((List.pairwise_cons.1 hrest).1 c hc) hab
  · intro h
    exact List.Pairwise.chain' h

theorem insertionStep_perm {α : Type} (less : α → α → Bool) (x : α) (before : List α) :
    (insertionStep less x before).Perm (x :: before) := by
  induction before with
  | nil => exact List.Perm.refl _
  | cons y rest ih =>
    unfold insertionStep
    split
    · exact ((List.Perm.cons y ih).trans (List.Perm.swap x y rest))
    · exact List.Perm.refl _

theorem insertionStep_pairwise {α : Type} (less : α → α → Bool)
    (hnt : ∀ x y z, less x y = false → less y z = false → less x z = false)
    (x : α) (before : List α)
    (hasym : ∀ y ∈ before, less x y = true → less y x = false)
    (hsorted : List.Pairwise (fun a b => less a b = false) before) :
    List.Pairwise (fun a b => less a b = false) (insertionStep less x before) := by
  induction before with
  | nil => simp [insertionStep]
  | cons y rest ih =>
    have hy := List.pairwise_cons.1 hsorted
    unfold insertionStep
    by_cases hxy : less x y = true
    · rw [if_pos hxy]
      refine List.Pairwise.cons ?_
        (ih (fun z hz => hasym z (List.mem_cons_of_mem _ hz)) hy.2)
      intro z hz
      rcases List.mem_cons.1 ((insertionStep_perm less x rest).mem_iff.1 hz) with rfl | hz
      · exact hasym y (List.mem_cons_self _ _) hxy
      · exact hy.1 z hz
    · rw [if_neg hxy]
      have hxy : less x y = false := by simpa using hxy
      refine List.Pairwise.cons ?_ hsorted
      intro z hz
      rcases List.mem_cons.1 hz with rfl | hz
      · exact hxy
      · exact hnt x y z hxy (hy.1 z hz)

theorem insertion_foldl_perm {α : Type} (less : α → α → Bool) (data acc : List α) :
    (data.foldl (fun before x => insertionStep less x before) acc).Perm (data.reverse ++ acc) := by
  induction data generalizing acc with
  | nil => simp
  | cons x rest ih =>
    simp only [List.foldl_cons, List.reverse_cons, List.append_assoc, List.singleton_append]
    exact (ih _).trans (List.Perm.append_left _ (insertionStep_perm less x acc))

theorem insertion_foldl_pairwise {α : Type} (less : α → α → Bool)
    (hnt : ∀ x y z, less x y = false → less y z = false → less x z = false)
    (data acc : List α)
    (hacc : List.Pairwise (fun a b => less a b = false) acc)
    (hcross : ∀ x ∈ data, ∀ y ∈ acc, ¬ (less x y = true ∧ less y x = true))
    (hdata : List.Pairwise (fun a b => ¬ (less a b = true ∧ less b a = true)) data) :
    List.Pairwise (fun a b => less a b = false)
      (data.foldl (fun before x => insertionStep less x before) acc) := by
  induction data generalizing acc with
  | nil => simpa using hacc
  | cons x rest ih =>
    have hx := List.pairwise_cons.1 hdata
    simp only [List.foldl_cons]
    apply ih
    · apply insertionStep_pairwise less hnt x acc _ hacc
      intro y hy hxy
      have := hcross x (List.mem_cons_self _ _) y hy
      cases h : less y x
      · rfl
      · exact absurd ⟨hxy, h⟩ this
    · intro z hz y hy
      rcases List.mem_cons.1 ((insertionStep_perm less x acc).mem_iff.1 hy) with rfl | hy
      · intro h
        exact hx.1 z hz ⟨h.2, h.1⟩
      · exact hcross z (List.mem_cons_of_mem _ hz) y hy
    · exact hx.2

theorem insertionSort_func_perm (less : Output → Output → Bool) (data : List Output) :
    (insertionSort_func less data).Perm data := by
  unfold insertionSort_func
  refine (List.reverse_perm _).trans ((insertion_foldl_perm less data []).trans ?_)
  simp

theorem insertionSort_func_sorted (less : Output → Output → Bool)
    (hnt : ∀ x y z, less x y = false → less y z = false → less x z = false)
    (data : List Output)
    (hex : ∃ t : List Output, t.Perm data ∧ IsSorted less t = true) :
    IsSorted less (insertionSort_func less data) = true := by
  obtain ⟨t, hperm, ht⟩ := hex
  have hpair := (isSorted_iff_pairwise less hnt t).1 ht
  have hsym : List.Pairwise (fun a b => ¬ (less a b = true ∧ less b a = true)) t :=
    hpair.imp (fun {a b} hab h => by simp [hab] at h)
  have hdata : List.Pairwise (fun a b => ¬ (less a b = true ∧ less b a = true)) data :=
    (List.Perm.pairwise_iff (fun {x y} h h2 => h ⟨h2.2, h2.1⟩) hperm).1 hsym
  rw [isSorted_iff_pairwise less hnt]
  unfold insertionSort_func
  rw [List.pairwise_reverse]
  exact insertion_foldl_pairwise less hnt data [] List.Pairwise.nil (by simp) hdata

theorem insertionSort_func_contract : SortSliceContract insertionSort_func where
  perm := insertionSort_func_perm
  sorted := fun less s _ hnt hex => insertionSort_func_sorted less hnt s hex

theorem set_set_perm (data : List Output) (i j : Nat) (x y : Output)
    (hi : data.get? i = some x) (hj : data.get? j = some y) :
    ((data.set i y).set j x).Perm data := by
  rw [List.perm_iff_count]
  intro b
  obtain ⟨hil, hix⟩ := List.get?_eq_some.1 hi
  obtain ⟨hjl, hjy⟩ := List.get?_eq_some.1 hj
  have hix : data[i] = x := by simpa using hix
  have hjy : data[j] = y := by simpa using hjy
  have hjl2 : j < (data.set i y).length := by simpa using hjl
  have hget : (data.set i y)[j] = y := by
    rw [List.getElem_set]
    split
    · rfl
    · exact hjy
  rw [List.count_set _ _ _ _ hjl2, List.count_set _ _ _ _ hil, hget, hix]
  have hxmem : x ∈ data := hix ▸ List.getElem_mem hil
  have hcount : (if (x == b) = true then 1 else 0) ≤ data.count b := by
    split
    · rename_i h
      have hxb : x = b := by simpa using h
      subst hxb
      exact List.count_pos_iff.2 hxmem
    · omega
  omega

theorem shellStep_perm (less : Output → Output → Bool) (data : List Output) (i : Nat) :
    (shellStep less data i).Perm data := by
  unfold shellStep
  split
  · rename_i x y hx hy
    split
    · exact set_set_perm data i (i - 6) x y hx hy
    · exact List.Perm.refl _
  · exact List.Perm.refl _

theorem shellStep_foldl_perm (less : Output → Output → Bool) (steps : List Nat)
    (data : List Output) : (steps.foldl (shellStep less) data).Perm data := by
  induction steps generalizing data with
  | nil => exact List.Perm.refl _
  | cons i rest ih => exact (ih _).trans (shellStep_perm less data i)

theorem shellPass_perm (less : Output → Output → Bool) (data : List Output) :
    (shellPass less data).Perm data :=
  shellStep_foldl_perm less _ data

theorem quickSort_func_contract : SortSliceContract quickSort_func where
  perm := fun less s =>
    (insertionSort_func_perm less (shellPass less s)).trans (shellPass_perm less s)
  sorted := fun less s _ hnt hex => by
    obtain ⟨t, hperm, ht⟩ := hex
    exact insertionSort_func_sorted less hnt (shellPass less s)
      ⟨t, hperm.trans (shellPass_perm less s).symm, ht⟩

/-! ## The primary output -/

theorem isSorted_primary_iff (l : List Output) :
    IsSorted (fun a _ => a.Primary) l = true ↔ ∀ o ∈ l.tail, o.Primary = false := by
  induction l with
  | nil => simp [IsSorted]
  | cons a rest ih =>
    cases rest with
    | nil => simp [IsSorted]
    | cons b rest =>
      simp only [IsSorted, Bool.and_eq_true, Bool.not_eq_true', ih, List.tail_cons,
        List.mem_cons, forall_eq_or_imp]

theorem countP_primary_eq_one (l : List Output) (p : Output) (hp : p ∈ l)
    (hprim : p.Primary = true) (hone : l.countP (fun o => o.Primary) = 1) :
    ∀ o ∈ l.erase p, o.Primary = false := by
  have hperm : l.Perm (p :: l.erase p) := List.perm_cons_erase hp
  have hcount := hperm.countP_eq (fun o => o.Primary)
  rw [hone, List.countP_cons_of_pos _ _ hprim] at hcount
  have hzero : (l.erase p).countP Output.Primary = 0 := by omega
  intro o ho
  have := (List.countP_eq_zero.1 hzero) o ho
  simpa using this

theorem insertionStep_primary (x : Output) (before : List Output) :
    insertionStep (fun a _ => a.Primary) x before
      = if x.Primary then before ++ [x] else x :: before := by
  induction before with
  | nil => cases h : x.Primary <;> simp [insertionStep]
  | cons y rest ih =>
    cases h : x.Primary
    · simp [insertionStep, h]
    · simp only [insertionStep, h, if_true, List.cons_append]
      rw [ih, h]
      simp

theorem insertion_foldl_primary (data acc : List Output) :
    data.foldl (fun before x => insertionStep (fun a _ => a.Primary) x before) acc
      = (data.filter (fun o => !o.Primary)).reverse ++ acc
          ++ data.filter (fun o => o.Primary) := by
  induction data generalizing acc with
  | nil => simp
  | cons x rest ih =>
    simp only [List.foldl_cons]
    rw [ih, insertionStep_primary]
    cases h : x.Primary <;> simp [h]

theorem insertionSort_func_primary (data : List Output) :
    insertionSort_func (fun a _ => a.Primary) data
      = (data.filter (fun o => o.Primary)).reverse ++ data.filter (fun o => !o.Primary) := by
  unfold insertionSort_func
  rw [insertion_foldl_primary]
  simp

theorem tail_insertionSort_func_primary (data : List Output)
    (hone : data.countP (fun o => o.Primary) = 1) :
    (insertionSort_func (fun a _ => a.Primary) data).tail
      = data.filter (fun o => !o.Primary) := by
  rw [insertionSort_func_primary]
  have hlen : (data.filter (fun o => o.Primary)).reverse.length = 1 := by
    rw [List.length_reverse, ← List.countP_eq_length_filter]; exact hone
  obtain ⟨a, ha⟩ := List.length_eq_one.1 hlen
  rw [ha]; rfl

/-- Claim C5, as amended.  Whatever `sort.Slice` does within its documented contract: when
exactly one active output is marked primary, the sorted active list starts with that output,
wherever it stood in the query, and the rest of the list is a rearrangement of the other active
outputs.  When the library sorts by plain insertion (`insertionSort_func`), the rest keeps the
order of the query. -/
theorem primary_first (sortSlice : SortSlice) (hcontract : SortSliceContract sortSlice)
    (outputs : List Output) (p : Output) (hp : p ∈ ActiveOutputs outputs)
    (hprim : p.Primary = true)
    (hone : (ActiveOutputs outputs).countP (fun o => o.Primary) = 1) :
    (sortedActiveOutputs sortSlice outputs).head? = some p ∧
    (sortedActiveOutputs sortSlice outputs).tail.Perm ((ActiveOutputs outputs).erase p) ∧
    (sortedActiveOutputs insertionSort_func outputs).tail
      = (ActiveOutputs outputs).filter (fun o => !o.Primary) := by
  refine and_assoc.1 ⟨?_, tail_insertionSort_func_primary _ hone⟩
  have hothers := countP_primary_eq_one _ p hp hprim hone
  have hperm : (sortedActiveOutputs sortSlice outputs).Perm (ActiveOutputs outputs) :=
    hcontract.perm _ _
  have hsorted : IsSorted (fun a _ => a.Primary) (sortedActiveOutputs sortSlice outputs) = true := by
    apply hcontract.sorted
    · intro x y z hxy _; exact hxy
    · intro x y z hxy _; exact hxy
    · refine ⟨p :: (ActiveOutputs outputs).erase p, (List.perm_cons_erase hp).symm, ?_⟩
      rw [isSorted_primary_iff]
      exact hothers
  rw [isSorted_primary_iff] at hsorted
  have hmem : p ∈ sortedActiveOutputs sortSlice outputs := hperm.mem_iff.2 hp
  generalize sortedActiveOutputs sortSlice outputs = sorted at *
  cases sorted with
  | nil => simp at hmem
  | cons a rest =>
    have hap : a = p := by
      rcases List.mem_cons.1 hmem with h | h
      · exact h.symm
      · have := hsorted p (by simpa using h)
        rw [hprim] at this
        cases this
    subst hap
    refine ⟨rfl, ?_⟩
    simp only [List.tail_cons]
    exact (List.perm_cons a).1 (hperm.trans (List.perm_cons_erase hp))

/-- The eight outputs of `exEight`, whose primary output is queried last. -/
theorem primary_first_witness :
    (sortedActiveOutputs quickSort_func exEight).head? = some ⟨"eDP-1", true, true⟩ ∧
    (sortedActiveOutputs quickSort_func exEight).tail.Perm
      ((ActiveOutputs exEight).erase ⟨"eDP-1", true, true⟩) ∧
    (sortedActiveOutputs insertionSort_func exEight).tail
      = (ActiveOutputs exEight).filter (fun o => !o.Primary) :=
  primary_first quickSort_func quickSort_func_contract exEight ⟨"eDP-1", true, true⟩
    (by decide) rfl (by decide)

/-- Claim C5 fails as stated: `quickSort_func` keeps the contract of `sort.Slice`, and on eight
active outputs with the one primary output queried last it leaves `HDMI-1` behind `HDMI-6`, so
the outputs after the primary one are not in the order of the query. -/
theorem sort_not_stable :
    SortSliceContract quickSort_func ∧
    (ActiveOutputs exEight).countP (fun o => o.Primary) = 1 ∧
    (sortedActiveOutputs quickSort_func exEight).map (fun o => o.Name)
      = ["eDP-1", "HDMI-0", "HDMI-2", "HDMI-3", "HDMI-4", "HDMI-5", "HDMI-6", "HDMI-1"] ∧
    (sortedActiveOutputs quickSort_func exEight).tail
      ≠ (ActiveOutputs exEight).filter (fun o => !o.Primary) :=
  ⟨quickSort_func_contract, by decide, by decide, by decide⟩

/-! ## One pass -/

theorem length_sortedActiveOutputs (sortSlice : SortSlice)
    (hcontract : SortSliceContract sortSlice) (outputs : List Output) :
    (sortedActiveOutputs sortSlice outputs).length = (ActiveOutputs outputs).length :=
  (hcontract.perm _ _).length_eq

theorem expectedOutput_isSome (activeOutputs : List Output) (n : Nat) (w : Workspace)
    (hlen : activeOutputs.length = n) (hn : 1 ≤ n) (hw : 1 ≤ w.Num) :
    (expectedOutput activeOutputs n w).isSome = true := by
  unfold expectedOutput
  have hn1 : (1 : Int) ≤ (n : Int) := by omega
  have hn0 : (n : Int) ≠ 0 := by omega
  have hlo : 0 ≤ w.Num % (n : Int) := Int.emod_nonneg _ hn0
  have hhi : w.Num % (n : Int) < n := Int.emod_lt_of_pos _ (by omega)
  rw [CurrentOutputNum_ofInt_pos w.Num n (by omega) hn1]
  apply sliceIndex_isSome
  · simp only [Float64.toInt]; split <;> omega
  · simp only [Float64.toInt]; split <;> omega

theorem expectedOutput_isSome_of_sorted (sortSlice : SortSlice)
    (hcontract : SortSliceContract sortSlice) (outputs : List Output)
    (workspaces : List Workspace) (hactive : ActiveOutputs outputs ≠ [])
    (hnum : ∀ w ∈ workspaces, 1 ≤ w.Num) :
    ∀ w ∈ workspaces, (expectedOutput (sortedActiveOutputs sortSlice outputs)
      (ActiveOutputs outputs).length w).isSome = true := by
  intro w hw
  apply expectedOutput_isSome _ _ _ (length_sortedActiveOutputs sortSlice hcontract outputs)
  · exact List.length_pos.2 hactive
  · exact hnum w hw

theorem loop_step_some (run : Nat → Call → Option String) (activeOutputs : List Output)
    (n : Nat) (w : Workspace) (rest : List Workspace) (calls : List Call) (e : Output)
    (he : expectedOutput activeOutputs n w = some e) :
    redistributeWorkspaces.loop run activeOutputs n (w :: rest) calls
      = if e.Name ≠ w.Output then
          match run calls.length (.MoveWorkspaceToOutput (.ofInt w.Num) e.Name) with
          | some err =>
            (calls ++ [.MoveWorkspaceToOutput (.ofInt w.Num) e.Name],
              some (.returned (some err)))
          | none => redistributeWorkspaces.loop run activeOutputs n rest
              (calls ++ [.MoveWorkspaceToOutput (.ofInt w.Num) e.Name])
        else redistributeWorkspaces.loop run activeOutputs n rest calls := by
  unfold expectedOutput at he
  simp only [redistributeWorkspaces.loop, he]

theorem loop_step_none (run : Nat → Call → Option String) (activeOutputs : List Output)
    (n : Nat) (w : Workspace) (rest : List Workspace) (calls : List Call)
    (he : expectedOutput activeOutputs n w = none) :
    redistributeWorkspaces.loop run activeOutputs n (w :: rest) calls
      = (calls, some .panicked) := by
  unfold expectedOutput at he
  simp only [redistributeWorkspaces.loop, he]

/-- A loop over workspaces that are all on their expected output makes no call. -/
theorem loop_in_place (run : Nat → Call → Option String) (activeOutputs : List Output)
    (n : Nat) (workspaces : List Workspace) (calls : List Call)
    (hplace : ∀ w ∈ workspaces, ∃ e, expectedOutput activeOutputs n w = some e ∧
      e.Name = w.Output) :
    redistributeWorkspaces.loop run activeOutputs n workspaces calls = (calls, none) := by
  induction workspaces generalizing calls with
  | nil => simp [redistributeWorkspaces.loop]
  | cons w rest ih =>
    obtain ⟨e, he, hname⟩ := hplace w (List.mem_cons_self _ _)
    rw [loop_step_some _ _ _ _ _ _ e he]
    simp only [hname, ne_eq, not_true_eq_false, if_false]
    exact ih calls (fun v hv => hplace v (List.mem_cons_of_mem _ hv))

/-- The two ways the loop ends when every lookup is in bounds: all moves made succeeded and the
loop ran to its end, or the last move made failed and its error left the function. -/
theorem loop_cases (run : Nat → Call → Option String) (activeOutputs : List Output)
    (n : Nat) (workspaces : List Workspace) (calls : List Call)
    (hsome : ∀ w ∈ workspaces, (expectedOutput activeOutputs n w).isSome = true) :
    (∃ moves, redistributeWorkspaces.loop run activeOutputs n workspaces calls
        = (calls ++ moves, none) ∧
      (∀ k c, moves.get? k = some c → run (calls.length + k) c = none) ∧
      (∀ c ∈ moves, ∃ num name, c = .MoveWorkspaceToOutput num name)) ∨
    (∃ moves num name err, redistributeWorkspaces.loop run activeOutputs n workspaces calls
        = (calls ++ moves ++ [.MoveWorkspaceToOutput num name],
            some (.returned (some err))) ∧
      run (calls.length + moves.length) (.MoveWorkspaceToOutput num name) = some err) := by
  induction workspaces generalizing calls with
  | nil =>
    left
    exact ⟨[], by simp [redistributeWorkspaces.loop], by simp, by simp⟩
  | cons w rest ih =>
    obtain ⟨e, he⟩ := Option.isSome_iff_exists.1 (hsome w (List.mem_cons_self _ _))
    have hrest := fun v hv => hsome v (List.mem_cons_of_mem _ hv)
    rw [loop_step_some _ _ _ _ _ _ e he]
    by_cases h : e.Name = w.Output
    · simp only [h, ne_eq, not_true_eq_false, if_false]
      exact ih calls hrest
    · simp only [h, ne_eq, not_false_eq_true, if_true]
      cases hrun : run calls.length (.MoveWorkspaceToOutput (.ofInt w.Num) e.Name) with
      | some err =>
        right
        exact ⟨[], .ofInt w.Num, e.Name, err, by simp, by simpa using hrun⟩
      | none =>
        simp only []
        rcases ih (calls ++ [.MoveWorkspaceToOutput (.ofInt w.Num) e.Name]) hrest with
          ⟨moves, hloop, hok, hmv⟩ | ⟨moves, num, name, err, hloop, herr⟩
        · left
          refine ⟨.MoveWorkspaceToOutput (.ofInt w.Num) e.Name :: moves, ?_, ?_, ?_⟩
          · rw [hloop]; simp
          · intro k c hk
            cases k with
            | zero =>
              simp only [List.get?_cons_zero, Option.some.injEq] at hk
              subst hk
              simpa using hrun
            | succ k =>
              have := hok k c (by simpa using hk)
              simp only [List.length_append, List.length_singleton] at this
              rw [← this]; congr 1; omega
          · intro c hc
            rcases List.mem_cons.1 hc with rfl | hc
            · exact ⟨_, _, rfl⟩
            · exact hmv c hc
        · right
          refine ⟨.MoveWorkspaceToOutput (.ofInt w.Num) e.Name :: moves, num, name, err, ?_, ?_⟩
          · rw [hloop]; simp
          · simp only [List.length_append, List.length_singleton] at herr
            rw [← herr]; congr 1
            simp only [List.length_cons]; omega

theorem redistributeWorkspaces_answering (sortSlice : SortSlice) (outputs : List Output)
    (workspaces : List Workspace) (run : Nat → Call → Option String) :
    redistributeWorkspaces sortSlice (answering outputs workspaces run)
      = match redistributeWorkspaces.loop run (sortedActiveOutputs sortSlice outputs)
          (ActiveOutputs outputs).length workspaces [] with
        | (calls, some outcome) => ⟨calls, outcome⟩
        | (calls, none) =>
          ⟨calls ++ [.SwitchToWorkspace (CurrentWorkspaceNum workspaces)],
            .returned (run calls.length (.SwitchToWorkspace (CurrentWorkspaceNum workspaces)))⟩ :=
  rfl

/-- Claim C7.  When every workspace is already on its expected output, a pass issues no move:
its only command is the switch to `CurrentWorkspaceNum(workspaces)`, whose result it returns.
(Workspaces on their expected output leave nothing to require of the active outputs.) -/
theorem pass_idempotent (sortSlice : SortSlice) (outputs : List Output)
    (workspaces : List Workspace) (run : Nat → Call → Option String)
    (hplace : ∀ w ∈ workspaces, ∃ e, expectedOutput (sortedActiveOutputs sortSlice outputs)
      (ActiveOutputs outputs).length w = some e ∧ e.Name = w.Output) :
    redistributeWorkspaces sortSlice (answering outputs workspaces run)
      = ⟨[.SwitchToWorkspace (CurrentWorkspaceNum workspaces)],
          .returned (run 0 (.SwitchToWorkspace (CurrentWorkspaceNum workspaces)))⟩ := by
  rw [redistributeWorkspaces_answering, loop_in_place _ _ _ _ _ hplace]
  simp

/-- The example scenario after redistribution. -/
theorem pass_idempotent_witness :
    redistributeWorkspaces insertionSort_func (answering exOutputs exPlaced (fun _ _ => none))
      = ⟨[.SwitchToWorkspace (.ofInt 2)], .returned none⟩ :=
  pass_idempotent insertionSort_func exOutputs exPlaced (fun _ _ => none) (by decide)

/-- Claim C8 fails as stated: in the example scenario, when the move of workspace 1 returns an
error, the pass returns that error and the move is the only command attempted; the switch
back to workspace 2 is not. -/
theorem final_switch_skipped_after_failed_move :
    SortSliceContract insertionSort_func ∧ ActiveOutputs exOutputs ≠ [] ∧
    (redistributeWorkspaces insertionSort_func
        (answering exOutputs exWorkspaces failFirst)).calls
      = [.MoveWorkspaceToOutput (.ofInt 1) "A"] ∧
    (redistributeWorkspaces insertionSort_func
        (answering exOutputs exWorkspaces failFirst)).outcome
      = .returned (some "exit status 1") ∧
    (redistributeWorkspaces insertionSort_func
        (answering exOutputs exWorkspaces failFirst)).calls.getLast?
      ≠ some (.SwitchToWorkspace (CurrentWorkspaceNum exWorkspaces)) :=
  ⟨insertionSort_func_contract, by decide, by decide, by decide, by decide⟩

/-- Claim C8, as amended.  In a pass with at least one active output and positive workspace
numbers: when no `MoveWorkspaceToOutput` call the pass makes returns an error, the last command
attempted is `SwitchToWorkspace(CurrentWorkspaceNum(workspaces))`, on the workspaces queried at
the start, and the pass returns its result; when one does, that move is the last command
attempted and the pass returns its error. -/
theorem final_switch_unless_move_fails (sortSlice : SortSlice)
    (hcontract : SortSliceContract sortSlice) (outputs : List Output)
    (workspaces : List Workspace) (run : Nat → Call → Option String)
    (hactive : ActiveOutputs outputs ≠ []) (hnum : ∀ w ∈ workspaces, 1 ≤ w.Num) :
    ((∀ k num name,
        (redistributeWorkspaces sortSlice (answering outputs workspaces run)).calls.get? k
          = some (.MoveWorkspaceToOutput num name) →
        run k (.MoveWorkspaceToOutput num name) = none) →
      (redistributeWorkspaces sortSlice (answering outputs workspaces run)).calls.getLast?
        = some (.SwitchToWorkspace (CurrentWorkspaceNum workspaces)) ∧
      (redistributeWorkspaces sortSlice (answering outputs workspaces run)).outcome
        = .returned (run
          ((redistributeWorkspaces sortSlice (answering outputs workspaces run)).calls.length - 1)
          (.SwitchToWorkspace (CurrentWorkspaceNum workspaces)))) ∧
    (¬ (∀ k num name,
        (redistributeWorkspaces sortSlice (answering outputs workspaces run)).calls.get? k
          = some (.MoveWorkspaceToOutput num name) →
        run k (.MoveWorkspaceToOutput num name) = none) →
      ∃ num name err,
        (redistributeWorkspaces sortSlice (answering outputs workspaces run)).calls.getLast?
          = some (.MoveWorkspaceToOutput num name) ∧
        run ((redistributeWorkspaces sortSlice (answering outputs workspaces run)).calls.length
          - 1) (.MoveWorkspaceToOutput num name) = some err ∧
        (redistributeWorkspaces sortSlice (answering outputs workspaces run)).outcome
          = .returned (some err)) := by
  have hsome := expectedOutput_isSome_of_sorted sortSlice hcontract outputs workspaces
    hactive hnum
  rw [redistributeWorkspaces_answering]
  rcases loop_cases run _ _ workspaces [] hsome with
    ⟨moves, hloop, hok, hmv⟩ | ⟨moves, num, name, err, hloop, herr⟩
  · rw [hloop]
    simp only [List.nil_append, List.length_append, List.length_singleton,
      Nat.add_sub_cancel, List.getLast?_concat,
      true_and]
    constructor
    · intro _; trivial
    · intro hnot
      exfalso
      apply hnot
      intro k num name hk
      rcases Nat.lt_or_ge k moves.length with hlt | hge
      · have hk2 : moves.get? k = some (.MoveWorkspaceToOutput num name) := by
          rw [List.get?_eq_getElem?] at hk ⊢
          rwa [List.getElem?_append_left hlt] at hk
        simpa using hok k _ hk2
      · rw [List.get?_eq_getElem?, List.getElem?_append_right hge] at hk
        cases hidx : k - moves.length with
        | zero => rw [hidx] at hk; simp at hk
        | succ j => rw [hidx] at hk; simp at hk
  · rw [hloop]
    simp only [List.nil_append, List.length_append, List.length_singleton,
      Nat.add_sub_cancel, List.getLast?_concat,
      List.length_nil, Nat.zero_add] at herr ⊢
    constructor
    · intro hall
      have := hall moves.length num name (by simp [List.get?_eq_getElem?])
      rw [herr] at this
      cases this
    · intro _
      exact ⟨num, name, err, rfl, herr, rfl⟩

/-- The example scenario with every command succeeding, and with the first one failing. -/
theorem final_switch_unless_move_fails_witness :
    (redistributeWorkspaces insertionSort_func
        (answering exOutputs exWorkspaces (fun _ _ => none))).calls.getLast?
      = some (.SwitchToWorkspace (.ofInt 2)) ∧
    ∃ num name err,
      (redistributeWorkspaces insertionSort_func
          (answering exOutputs exWorkspaces failFirst)).calls.getLast?
        = some (.MoveWorkspaceToOutput num name) ∧
      failFirst ((redistributeWorkspaces insertionSort_func
          (answering exOutputs exWorkspaces failFirst)).calls.length - 1)
        (.MoveWorkspaceToOutput num name) = some err ∧
      (redistributeWorkspaces insertionSort_func
          (answering exOutputs exWorkspaces failFirst)).outcome = .returned (some err) :=
  ⟨((final_switch_unless_move_fails insertionSort_func insertionSort_func_contract exOutputs
      exWorkspaces (fun _ _ => none) (by decide) (by decide)).1 (fun _ _ _ _ => rfl)).1,
    (final_switch_unless_move_fails insertionSort_func insertionSort_func_contract exOutputs
      exWorkspaces failFirst (by decide) (by decide)).2
      (fun h => by
        have := h 0 (.ofInt 1) "A" (by decide)
        exact absurd this (by decide))⟩

/-! ## No active output, and the loop -/

theorem expectedOutput_no_outputs (w : Workspace) : expectedOutput [] 0 w = none := by
  simp [expectedOutput, CurrentOutputNum, mathMod, Float64.eq, Float64.toInt, sliceIndex]

/-- Claim C2, what the code does instead.  With no active output the pass has no guard: on an
empty workspace list it switches to workspace 1 and returns the result of that command, and on
a non-empty one it evaluates `CurrentOutputNum` with a count of 0, which is NaN, and panics on
indexing the empty slice of active outputs. -/
theorem pass_without_active_output (sortSlice : SortSlice)
    (hcontract : SortSliceContract sortSlice) (outputs : List Output)
    (run : Nat → Call → Option String) (hnone : ActiveOutputs outputs = []) :
    redistributeWorkspaces sortSlice (answering outputs [] run)
      = ⟨[.SwitchToWorkspace (.ofInt 1)], .returned (run 0 (.SwitchToWorkspace (.ofInt 1)))⟩ ∧
    ∀ (w : Workspace) (rest : List Workspace),
      CurrentOutputNum (.ofInt w.Num) (ActiveOutputsNum outputs) = .NaN ∧
      redistributeWorkspaces sortSlice (answering outputs (w :: rest) run)
        = ⟨[], .panicked⟩ := by
  have hsorted : sortedActiveOutputs sortSlice outputs = [] := by
    have := length_sortedActiveOutputs sortSlice hcontract outputs
    rw [hnone] at this
    exact List.length_eq_zero.1 this
  constructor
  · rw [redistributeWorkspaces_answering]
    simp [redistributeWorkspaces.loop, CurrentWorkspaceNum]
  · intro w rest
    constructor
    · simp [ActiveOutputsNum, hnone, CurrentOutputNum, mathMod, Float64.eq]
    · rw [redistributeWorkspaces_answering, hsorted, hnone, List.length_nil,
        loop_step_none _ _ _ _ _ _ (expectedOutput_no_outputs w)]

/-- A single inactive output. -/
theorem pass_without_active_output_witness :
    redistributeWorkspaces insertionSort_func (answering [⟨"A", false, true⟩] [] (fun _ _ => none))
      = ⟨[.SwitchToWorkspace (.ofInt 1)], .returned none⟩ ∧
    ∀ (w : Workspace) (rest : List Workspace),
      CurrentOutputNum (.ofInt w.Num) (ActiveOutputsNum [⟨"A", false, true⟩]) = .NaN ∧
      redistributeWorkspaces insertionSort_func
          (answering [⟨"A", false, true⟩] (w :: rest) (fun _ _ => none))
        = ⟨[], .panicked⟩ :=
  pass_without_active_output insertionSort_func insertionSort_func_contract
    [⟨"A", false, true⟩] (fun _ _ => none) rfl

theorem doDistribute_failing (sortSlice : SortSlice) (err : String) :
    doDistribute sortSlice 0 5 (failing err) = .returned none := by
  simp [doDistribute, redistributeWorkspaces, failing]

/-- Claim C1, what the code does instead.  `Start` calls `start(0)` and `attempt` never
changes, so however many passes fail in a row the loop has not returned; only a call
`start(attempt)` with `attempt ≥ 5`, which nothing makes, returns the error of a failed
pass. -/
theorem Start_keeps_running_on_failures (sortSlice : SortSlice) (wakes : List Wake)
    (hfail : ∀ wake ∈ wakes, ∃ err, wake = .tick (failing err) ∨ wake = .msg (failing err)) :
    Start sortSlice wakes = none ∧
    ∀ (err : String) (rest : List Wake),
      start sortSlice 5 (.tick (failing err) :: rest)
        = some (.returned (some ("couldn't find outputs: " ++ err))) := by
  refine ⟨?_, fun err rest => by
    simp [start, start.loop, doDistribute, redistributeWorkspaces, failing]⟩
  unfold Start start
  induction wakes with
  | nil => rfl
  | cons wake rest ih =>
    have hrest := ih (fun v hv => hfail v (List.mem_cons_of_mem _ hv))
    obtain ⟨err, h | h⟩ := hfail wake (List.mem_cons_self _ _)
    · subst h
      simp only [start.loop, doDistribute_failing]
      exact hrest
    · subst h
      simp only [start.loop, doDistribute_failing]
      exact hrest

/-- Five wakes of the ticker, each pass failing. -/
theorem Start_keeps_running_on_failures_witness :
    Start insertionSort_func (List.replicate 5 (.tick (failing "exit status 1"))) = none :=
  (Start_keeps_running_on_failures insertionSort_func _ (by
    intro wake hwake
    exact ⟨"exit status 1", Or.inl (List.eq_of_mem_replicate hwake)⟩)).1

end I3x3
